import Mathlib

/-!
Verification of the analytics_ql synthesis-to-execution pipeline.

Shallow embedding of the safety validator, reranker, admission controller,
retry gateway, candidate parsing and query-integrity layer from
`App/utils/sql_operations.py`, `App/utils/query_protection.py`,
`App/utils/llm_utils.py` and `App/utils/query_generation.py`.
Machine floats are modelled as rationals; external collaborators (the
cross-encoder scorer, the sqlparse formatter, the SHA-256 primitive and the
database) are passed in as parameters, while every algorithm of the
repository itself is translated operation by operation.
-/

/-! ## Character-level primitives

Python's `str.lower`/`str.upper` on the ASCII range, the `\w` word-character
class of `re`, and the whitespace class used by `str.split`/`str.strip`. -/

/-- Lower-casing of one character, as Python's `str.lower` acts on ASCII. -/
def lcC (c : Char) : Char := c.toLower

/-- Upper-casing of one character, as Python's `str.upper` acts on ASCII. -/
def ucC (c : Char) : Char := c.toUpper

/-- The `\w` class of Python's `re` restricted to ASCII: letters, digits, `_`. -/
def isWordChar (c : Char) : Bool :=
  decide ((48 ≤ c.toNat ∧ c.toNat ≤ 57) ∨ (65 ≤ c.toNat ∧ c.toNat ≤ 90) ∨
    (97 ≤ c.toNat ∧ c.toNat ≤ 122) ∨ c.toNat = 95)

/-- The whitespace class of Python's `str.split()` / `str.strip()`:
space, tab, newline, carriage return, vertical tab, form feed. -/
def isPySpace (c : Char) : Bool :=
  decide (c.toNat = 32 ∨ c.toNat = 9 ∨ c.toNat = 10 ∨ c.toNat = 13 ∨
    c.toNat = 11 ∨ c.toNat = 12)

/-! ## List-of-characters primitives: prefix and substring tests -/

/-- `startsWithL p s`: `p` is a literal prefix of `s`. -/
def startsWithL : List Char → List Char → Bool
  | [], _ => true
  | _ :: _, [] => false
  | p :: ps, c :: cs => (p == c) && startsWithL ps cs

/-- `containsSub p s`: Python's `p in s` substring test. -/
def containsSub (p : List Char) : List Char → Bool
  | [] => startsWithL p []
  | c :: cs => startsWithL p (c :: cs) || containsSub p cs

/-- Case-insensitive prefix test (both sides lowered), as `re.IGNORECASE`
compares the ASCII keywords of the blocklist. -/
def startsWithCI : List Char → List Char → Bool
  | [], _ => true
  | _ :: _, [] => false
  | k :: ks, c :: cs => (lcC c == lcC k) && startsWithCI ks cs

/-- Right word-boundary after a match of `kw` at the head of `s`: the first
character after the matched span, if any, is not a word character. -/
def boundaryR (kw s : List Char) : Bool :=
  match s.drop kw.length with
  | [] => true
  | c :: _ => !isWordChar c

/-- A whole-word, case-insensitive match of `kw` at the head of `s`
(the left boundary is checked by the caller). -/
def wwAt (kw s : List Char) : Bool := startsWithCI kw s && boundaryR kw s

/-- Scan of `re.search(r"\b(kw)\b", s, re.IGNORECASE)`: `prevOk` records that
the character before the current position is absent or not a word character. -/
def wwScan (kw : List Char) : Bool → List Char → Bool
  | _, [] => false
  | prevOk, c :: cs => (prevOk && wwAt kw (c :: cs)) || wwScan kw (!isWordChar c) cs

/-- Whole-word case-insensitive occurrence of `kw` anywhere in `s`. -/
def hasWholeWordCI (kw s : List Char) : Bool := wwScan kw true s

/-! ## `sql_operations.is_query_safe` — the basic safety check -/

/-- The DML/DDL blocklist of `is_query_safe` (`sql_operations.py:31`). -/
def FORBIDDEN_KEYWORDS : List String :=
  ["INSERT", "UPDATE", "DELETE", "DROP", "TRUNCATE", "ALTER", "CREATE",
   "GRANT", "REVOKE", "MERGE"]

/-- `is_query_safe(sql_query)` (`sql_operations.py:19-36`): false exactly when
the whole-word case-insensitive blocklist regex finds a match. -/
def is_query_safe (sql_query : String) : Bool :=
  !(FORBIDDEN_KEYWORDS.any fun kw => hasWholeWordCI kw.toList sql_query.toList)

/-! ## `sql_operations.rule_score` and `check_plan_limits` -/

/-- Python's `str.upper()` over the whole string (ASCII range). -/
def pyUpper (s : String) : String := ⟨s.toList.map ucC⟩

/-- The forbidden keywords of `rule_score`'s default argument. -/
def ruleForbidden : List String := ["DELETE", "UPDATE", "INSERT", "ALTER"]

/-- `rule_score(sql)` (`sql_operations.py:145-163`): 0.0 when a forbidden
keyword occurs as a *substring* of the upper-cased SQL, else 1.0 with a 0.1
penalty for `SELECT *`, floored at 0.0.  Floats modelled as rationals. -/
def rule_score (sql : String) : ℚ :=
  let up := (pyUpper sql).toList
  if ruleForbidden.any (fun f => containsSub f.toList up) then 0
  else
    let s : ℚ := if containsSub "SELECT *".toList up then 1 - 1/10 else 1
    max 0 s

/-- `check_plan_limits(total_cost, plan_rows)` (`sql_operations.py:67-85`). -/
def check_plan_limits (total_cost : ℚ) (plan_rows : ℤ) : Bool × String :=
  if total_cost > 1000000 ∨ plan_rows > 200000 then
    (true, "Plano excede limites: custo=" ++ toString total_cost ++
      ", linhas=" ++ toString plan_rows)
  else (false, "")

/-! ## `sql_operations.pick_best_query` — the reranker

`normalize_sql` delegates to the external `sqlparse` library and the model
score to the external cross-encoder, so both enter as parameters `norm` and
`predict`.  `final.argsort()[::-1]` is modelled as the (stable) ascending
argsort of the final scores followed by a reversal: indices are sorted by the
lexicographic order (score, index) and the result reversed. -/

/-- One entry of the ranking dictionary built by `pick_best_query`. -/
structure RankedQuery where
  rank : ℕ
  sql : String
  norm_sql : String
  model_score : ℚ
  rule_score : ℚ
  final_score : ℚ
deriving Repr, DecidableEq

/-- Ascending lexicographic comparison on (score, index): the order a stable
ascending argsort realises. -/
def lexLe (key : ℕ → ℚ) (i j : ℕ) : Bool :=
  decide (key i < key j) || (decide (key i = key j) && decide (i ≤ j))

/-- Ordered insertion of an index into an index list sorted by `lexLe`. -/
def ordInsert (key : ℕ → ℚ) (i : ℕ) : List ℕ → List ℕ
  | [] => [i]
  | j :: l => if lexLe key i j then i :: j :: l else j :: ordInsert key i l

/-- Insertion sort of an index list by `lexLe` (ascending). -/
def sortIdx (key : ℕ → ℚ) : List ℕ → List ℕ
  | [] => []
  | i :: l => ordInsert key i (sortIdx key l)

/-- `final.argsort()[::-1]`: stable ascending argsort of the first `n` keys,
then reversed. -/
def argsortDesc (key : ℕ → ℚ) (n : ℕ) : List ℕ := (sortIdx key (List.range n)).reverse

/-- Builds one ranking record for source index `idx` (`sql_operations.py:184-191`). -/
def mkRanked (candidates normed : List String) (model_scores rules finals : List ℚ)
    (r idx : ℕ) : RankedQuery :=
  { rank := r
    sql := candidates.getD idx ""
    norm_sql := normed.getD idx ""
    model_score := model_scores.getD idx 0
    rule_score := rules.getD idx 0
    final_score := finals.getD idx 0 }

/-- The list comprehension `[{..., "rank": i+1, ...} for i, idx in
enumerate(order[:top_k])]`: `r` counts the already emitted entries. -/
def buildRanking (candidates normed : List String) (model_scores rules finals : List ℚ) :
    ℕ → List ℕ → List RankedQuery
  | _, [] => []
  | r, idx :: rest =>
    mkRanked candidates normed model_scores rules finals (r + 1) idx ::
      buildRanking candidates normed model_scores rules finals (r + 1) rest

/-- `pick_best_query(question, candidates, top_k)` (`sql_operations.py:166-193`),
with the external SQL formatter `norm` and cross-encoder `predict` as inputs. -/
def pick_best_query (norm : String → String) (predict : String → String → ℚ)
    (question : String) (candidates : List String) (top_k : ℕ) : List RankedQuery :=
  let normed := candidates.map norm
  let model_scores := normed.map (predict question)
  let rules := normed.map rule_score
  let finals := List.zipWith (fun m r => 7/10 * m + 3/10 * r) model_scores rules
  let key := fun i => finals.getD i 0
  let order := argsortDesc key finals.length
  buildRanking candidates normed model_scores rules finals 0 (order.take top_k)

/-! ## `sql_operations.execute_sql_query` — the executor

The database is abstracted as an oracle answering `EXPLAIN (FORMAT JSON)` and
the real execution; the model records, in order, every round trip the code
makes, so "no EXPLAIN dry run, never run" is the statement that the recorded
trace is empty. -/

/-- The two numbers `execute_sql_query` extracts from the top plan node. -/
structure PlanNode where
  total_cost : ℚ
  plan_rows : ℤ
deriving Repr, DecidableEq

/-- A database oracle: the result of `EXPLAIN (FORMAT JSON)` (either a plan or
an error string) and the rows a real execution would return. -/
structure DBModel where
  explain : String → Except String PlanNode
  run : String → List (List String)

/-- One database round trip made by `execute_sql_query`. -/
inductive DbAction where
  | explainQ (sql : String)
  | runQ (sql : String)
deriving Repr, DecidableEq

/-- The outcome of `execute_sql_query` (execution time and plan numbers of the
success tuple are carried by the oracle and omitted here). -/
inductive ExecResult where
  | blocked (msg : String)
  | error (msg : String)
  | ok (table : List (List String))
deriving Repr, DecidableEq

/-- `execute_sql_query(sql_query)` (`sql_operations.py:88-128`), returning the
result together with the trace of database actions performed. -/
def execute_sql_query (db : DBModel) (sql_query : String) : ExecResult × List DbAction :=
  if is_query_safe sql_query = false then
    (.blocked "A query foi bloqueada por razões de segurança.", [])
  else
    match db.explain sql_query with
    | .error e => (.error ("Erro de sintaxe ou análise da query: " ++ e), [.explainQ sql_query])
    | .ok plan =>
      let fm := check_plan_limits plan.total_cost plan.plan_rows
      if fm.1 then
        (.blocked ("Execução bloqueada: " ++ fm.2), [.explainQ sql_query])
      else
        (.ok (db.run sql_query), [.explainQ sql_query, .runQ sql_query])

/-! ## `llm_utils.safe_send_message` — the retry gateway

The provider is a function from the attempt number to what that call does:
returns text, raises `ResourceExhausted`, or raises some other exception with
a message.  Sleeps are accumulated in order; both the retry-exhausted exit and
the swallowed-exception exit raise the same generic exception, which the model
keeps as a `raised` outcome carrying the message the caller sees. -/

/-- What one provider call does. -/
inductive CallRes where
  | ok (text : String)
  | rateExh
  | exc (msg : String)
deriving Repr, DecidableEq

/-- What `safe_send_message` itself produces for the caller. -/
inductive LLMOutcome where
  | ok (text : String)
  | raised (msg : String)
deriving Repr, DecidableEq

/-- The message of the exception raised at `llm_utils.py:90`. -/
def maxAttemptsMsg : String := "Máximo de tentativas atingido."

/-- Python's `str.lower()` over a whole string. -/
def pyLower (s : String) : String := ⟨s.toList.map lcC⟩

/-- The rate-limit heuristic of `llm_utils.py:79`: only for the new adapter,
`"rate" in str(e).lower() or "limit" in str(e).lower()`. -/
def isRateShaped (newAdapter : Bool) (msg : String) : Bool :=
  newAdapter &&
    (containsSub "rate".toList (pyLower msg).toList ||
      containsSub "limit".toList (pyLower msg).toList)

/-- The `while attempt < retries` loop of `safe_send_message`
(`llm_utils.py:34-90`).  `fuel` only bounds the recursion; it starts at
`retries` and is an upper bound for `retries - attempt` throughout, so the
loop guard `attempt < retries` is what actually stops the iteration. -/
def sendLoop (call : ℕ → CallRes) (newAdapter : Bool) (retries backoff : ℕ) :
    ℕ → ℕ → List ℕ → List ℕ × LLMOutcome
  | 0, _, sleeps => (sleeps, .raised maxAttemptsMsg)
  | fuel + 1, attempt, sleeps =>
    if attempt < retries then
      match call attempt with
      | .ok v => (sleeps, .ok v)
      | .rateExh =>
        if attempt + 1 < retries then
          sendLoop call newAdapter retries backoff fuel (attempt + 1)
            (sleeps ++ [backoff ^ (attempt + 1)])
        else (sleeps, .raised maxAttemptsMsg)
      | .exc msg =>
        if isRateShaped newAdapter msg then
          if attempt + 1 < retries then
            sendLoop call newAdapter retries backoff fuel (attempt + 1)
              (sleeps ++ [backoff ^ (attempt + 1)])
          else (sleeps, .raised maxAttemptsMsg)
        else (sleeps, .raised maxAttemptsMsg)
    else (sleeps, .raised maxAttemptsMsg)

/-- `safe_send_message(model, prompt, retries=5, backoff_factor=2)`: the loop
started at attempt 0 with no sleeps recorded, returning (sleep durations in
order, outcome). -/
def safe_send_message (call : ℕ → CallRes) (newAdapter : Bool)
    (retries backoff : ℕ) : List ℕ × LLMOutcome :=
  sendLoop call newAdapter retries backoff retries 0 []

/-! ## `query_generation.get_sql_from_text` — candidate parsing and the
post-rank safety guard

One provider candidate either fails structural decoding (`none`) or yields a
payload; `used_tables` is `none` when the JSON field is absent, and `other`
when present but not a list (`isinstance(used_tables, list)` fails). -/

/-- The decoded `used_tables` field of one candidate payload. -/
inductive JVal where
  | jlist (tables : List String)
  | other
deriving Repr, DecidableEq

/-- One successfully JSON-decoded candidate payload
(`json_response.get(...)` defaults already applied for the string fields). -/
structure Payload where
  sql_query : String
  explanation : String
  ml_algorithm : String
  used_tables : Option JVal
deriving Repr, DecidableEq

/-- The four accumulators of the candidate loop (`query_generation.py:156-177`). -/
structure ParseState where
  sql_candidates : List String
  ml_algorithms : List String
  explanations : List String
  used_tables_list : List String
deriving Repr, DecidableEq

/-- One iteration of `for candidate in candidates` (`query_generation.py:161-177`):
decode failures `continue`; otherwise the candidate's fields are appended and a
list-valued `used_tables` (a missing field defaults to `[]`, which is a list)
overwrites the accumulator. -/
def stepCandidate (norm : String → String) (st : ParseState) (c : Option Payload) :
    ParseState :=
  match c with
  | none => st
  | some p =>
    let normalized_sql := if p.sql_query = "" then "" else norm p.sql_query
    { sql_candidates := st.sql_candidates ++ [normalized_sql]
      ml_algorithms := st.ml_algorithms ++ [p.ml_algorithm]
      explanations := st.explanations ++ [p.explanation]
      used_tables_list :=
        match p.used_tables.getD (.jlist []) with
        | .jlist l => l
        | .other => st.used_tables_list }

/-- The whole candidate loop over a provider response. -/
def processCandidates (norm : String → String) (cands : List (Option Payload)) :
    ParseState :=
  cands.foldl (stepCandidate norm) ⟨[], [], [], []⟩

/-- The `used_tables` value one parsed payload would leave in the accumulator:
`some l` when it overwrites with `l`, `none` when it leaves it unchanged. -/
def effectiveUt (p : Payload) : Option (List String) :=
  match p.used_tables.getD (.jlist []) with
  | .jlist l => some l
  | .other => none

/-- Fixed strings returned by `get_sql_from_text` (`query_generation.py`). -/
def noQueryMsg : String := "-- Nenhuma query válida foi gerada."

def blockedGenMsg : String := "-- A query gerada foi bloqueada por razões de segurança."

def rerankErrMsg : String := "-- Erro ao reranquear as consultas candidatas: list index out of range"

def fallbackExpl : String := "Consulta selecionada pelo reranker (score=...)."

/-- The tail of `get_sql_from_text` (`query_generation.py:179-210`): the empty
check, the empty-string filter, reranking with `top_k=1`, the explanation and
ml-algorithm lookups, and the safety guard on the selected SQL.  Returns
(sql, explanation, used_tables, ml_algorithm). -/
def rerankAndGuard (norm : String → String) (predict : String → String → ℚ)
    (question : String) (sql_candidates explanations ml_algorithms : List String)
    (used_tables_list : List String) : String × String × List String × String :=
  if sql_candidates.isEmpty then (noQueryMsg, "", [], "")
  else
    let cands := sql_candidates.filter (fun q => q ≠ "")
    match (pick_best_query norm predict question cands 1).head? with
    | none => (rerankErrMsg, "", used_tables_list, "")
    | some top =>
      let selected_sql := top.sql
      let explanation :=
        match cands.findIdx? (fun q => q = selected_sql) with
        | none => fallbackExpl
        | some idx =>
          match explanations.get? idx with
          | some e => e
          | none => fallbackExpl
      if selected_sql = "" ∨ is_query_safe selected_sql = false then
        (blockedGenMsg, explanation, used_tables_list, "")
      else
        match cands.findIdx? (fun q => q = selected_sql) with
        | none => (selected_sql, explanation, used_tables_list, "")
        | some idx =>
          match ml_algorithms.get? idx with
          | none => (rerankErrMsg, "", used_tables_list, "")
          | some chosen_ml => (selected_sql, explanation, used_tables_list, chosen_ml)

/-! ## `query_protection.normalize_query` — the validator's normalization

`re.sub(r'--.*$', '', q, flags=re.MULTILINE)` truncates every line at its
first `--`; `re.sub(r'/\*.*?\*/', '', q, flags=re.DOTALL)` removes, left to
right, each leftmost `/*` together with the closest following `*/`;
`' '.join(q.split())` collapses whitespace runs; then `.strip().lower()`.
The two comment scanners recurse on a fuel argument that starts at the length
of the text, which bounds their step count. -/

/-- Skip to the next newline (the newline itself is kept: `.` in `--.*$`
does not match `\n`). -/
def skipToNl : List Char → List Char
  | [] => []
  | c :: cs => if c = '\n' then c :: cs else skipToNl cs

/-- Line-comment removal: every `--` erases the rest of its line. -/
def removeLineAux : ℕ → List Char → List Char
  | 0, s => s
  | fuel + 1, s =>
    match s with
    | [] => []
    | c :: cs =>
      if startsWithL "--".toList (c :: cs) then removeLineAux fuel (skipToNl cs)
      else c :: removeLineAux fuel cs

def removeLine (s : List Char) : List Char := removeLineAux s.length s

/-- After an opening `/*` (already consumed up to its `*`), the text that
follows the closest `*/`, if one exists. -/
def dropToClose : List Char → Option (List Char)
  | [] => none
  | c :: cs =>
    if startsWithL "*/".toList (c :: cs) then some (cs.drop 1)
    else dropToClose cs

/-- Block-comment removal: each leftmost `/*` is paired with the closest
following `*/` and the span removed; a `/*` with no later `*/` matches
nothing and ends the scan. -/
def removeBlockAux : ℕ → List Char → List Char
  | 0, s => s
  | fuel + 1, s =>
    match s with
    | [] => []
    | c :: cs =>
      if startsWithL "/*".toList (c :: cs) then
        match dropToClose (cs.drop 1) with
        | some rest => removeBlockAux fuel rest
        | none => c :: cs
      else c :: removeBlockAux fuel cs

def removeBlock (s : List Char) : List Char := removeBlockAux s.length s

/-- Python's `s.split()`: maximal runs of non-whitespace characters. -/
def wordsAux : ℕ → List Char → List (List Char)
  | 0, _ => []
  | _ + 1, [] => []
  | fuel + 1, c :: cs =>
    if isPySpace c then wordsAux fuel cs
    else (c :: cs.takeWhile (fun d => !isPySpace d)) ::
      wordsAux fuel (cs.dropWhile (fun d => !isPySpace d))

def pyWords (s : List Char) : List (List Char) := wordsAux s.length s

/-- `' '.join(ws)`. -/
def joinSp : List (List Char) → List Char
  | [] => []
  | [w] => w
  | w :: ws => w ++ ' ' :: joinSp ws

/-- `' '.join(s.split())`. -/
def collapseWs (s : List Char) : List Char := joinSp (pyWords s)

/-- Python's `s.strip()`: whitespace removed from both ends. -/
def pyStrip (s : List Char) : List Char :=
  ((s.dropWhile isPySpace).reverse.dropWhile isPySpace).reverse

/-- `normalize_query(query)` (`query_protection.py:16-40`). -/
def normalize_query (query : String) : String :=
  if query = "" then ""
  else ⟨(pyStrip (collapseWs (removeBlock (removeLine query.toList)))).map lcC⟩

/-! ## `query_protection.generate_query_hash` and `validate_query_integrity`

`hashlib.sha256` is an external primitive; the hash function enters as the
parameter `h`, applied to the normalized query exactly as the source applies
SHA-256 to `normalized.encode('utf-8')`. -/

/-- `generate_query_hash(query)` (`query_protection.py:43-54`) with the hash
primitive `h` abstracted. -/
def generate_query_hash (h : String → String) (query : String) : String :=
  h (normalize_query query)

/-- `validate_query_integrity(stored_query, execution_query)`
(`query_protection.py:57-82`). -/
def validate_query_integrity (h : String → String) (stored_query execution_query : String) :
    Bool × String :=
  if stored_query = "" ∨ execution_query = "" then (false, "Query vazia detectada")
  else if generate_query_hash h stored_query ≠ generate_query_hash h execution_query then
    (false, "Query foi modificada após geração")
  else (true, "")

/-! ## Specification predicates

Positional statements of "occurs as a substring" and "occurs as a whole word",
independent of the executable scanners above; the theorems connect the two. -/

/-- `p` occurs as a (contiguous) substring of `s`. -/
def SubstrOccurs (p s : List Char) : Prop := ∃ pre post, s = pre ++ p ++ post

/-- Equality of character lists up to ASCII case. -/
def LcEq (a b : List Char) : Prop := a.map lcC = b.map lcC

/-- The optional character at a word boundary is absent or not a word character. -/
def BoundaryChar : Option Char → Prop
  | none => True
  | some c => isWordChar c = false

/-- `kw` occurs in `s` as a whole word, case-insensitively: some span of `s`
equals `kw` up to case and both neighbouring characters (when present) are not
word characters. -/
def WholeWordOccurs (kw s : List Char) : Prop :=
  ∃ pre mid post, s = pre ++ mid ++ post ∧ LcEq mid kw ∧
    BoundaryChar pre.getLast? ∧ BoundaryChar post.head?

/-- The left-boundary invariant carried by `wwScan`: if nothing precedes the
scan position the flag must say so, otherwise the last preceding character is
not a word character. -/
def PrevOkCond (prevOk : Bool) (pre : List Char) : Prop :=
  match pre.getLast? with
  | none => prevOk = true
  | some c => isWordChar c = false

/-! # Theorems -/

theorem startsWithL_iff (p s : List Char) :
    startsWithL p s = true ↔ ∃ post, s = p ++ post := by
  induction p generalizing s with
  | nil => simp [startsWithL]
  | cons a ps ih =>
    cases s with
    | nil => simp [startsWithL]
    | cons c cs =>
      simp only [startsWithL, Bool.and_eq_true, beq_iff_eq, ih, List.cons_append,
        List.cons.injEq]
      constructor
      · rintro ⟨rfl, post, rfl⟩
        exact ⟨post, rfl, rfl⟩
      · rintro ⟨post, rfl, rfl⟩
        exact ⟨rfl, post, rfl⟩

theorem containsSub_iff (p s : List Char) :
    containsSub p s = true ↔ SubstrOccurs p s := by
  induction s with
  | nil =>
    simp only [containsSub, startsWithL_iff, SubstrOccurs]
    constructor
    · rintro ⟨post, h⟩
      exact ⟨[], post, by simpa using h⟩
    · rintro ⟨pre, post, h⟩
      rcases List.append_eq_nil.mp (List.append_eq_nil.mp h.symm).1 with ⟨rfl, rfl⟩
      exact ⟨post, by simpa using h⟩
  | cons c cs ih =>
    simp only [containsSub, Bool.or_eq_true, startsWithL_iff, ih, SubstrOccurs]
    constructor
    · rintro (⟨post, h⟩ | ⟨pre, post, h⟩)
      · exact ⟨[], post, by simpa using h⟩
      · exact ⟨c :: pre, post, by simp [h]⟩
    · rintro ⟨pre, post, h⟩
      cases pre with
      | nil => exact Or.inl ⟨post, by simpa using h⟩
      | cons d pre' =>
        obtain ⟨rfl, h2⟩ : c = d ∧ cs = pre' ++ p ++ post := by simpa using h
        exact Or.inr ⟨pre', post, h2⟩

theorem startsWithCI_iff (kw s : List Char) :
    startsWithCI kw s = true ↔ ∃ mid post, s = mid ++ post ∧ LcEq mid kw := by
  induction kw generalizing s with
  | nil =>
    simp only [startsWithCI, LcEq, true_iff]
    exact ⟨[], s, rfl, rfl⟩
  | cons k ks ih =>
    cases s with
    | nil =>
      simp only [startsWithCI]
      constructor
      · intro h
        exact Bool.noConfusion h
      · rintro ⟨mid, post, h, hmid⟩
        rcases List.append_eq_nil.mp h.symm with ⟨rfl, rfl⟩
        simp [LcEq] at hmid
    | cons c cs =>
      simp only [startsWithCI, Bool.and_eq_true, beq_iff_eq, ih]
      constructor
      · rintro ⟨hk, mid', post, rfl, hmid⟩
        exact ⟨c :: mid', post, rfl, by simpa [LcEq, hk] using hmid⟩
      · rintro ⟨mid, post, h, hmid⟩
        cases mid with
        | nil => simp [LcEq] at hmid
        | cons m mid' =>
          have hh : c = m ∧ cs = mid' ++ post := by simpa using h
          obtain ⟨rfl, rfl⟩ := hh
          obtain ⟨hk, hks⟩ : lcC c = lcC k ∧ List.map lcC mid' = List.map lcC ks := by
            simpa [LcEq] using hmid
          exact ⟨hk, mid', post, rfl, hks⟩

theorem lcEq_length {mid kw : List Char} (h : LcEq mid kw) : mid.length = kw.length := by
  have := congrArg List.length h
  simpa using this

theorem wwAt_iff (kw s : List Char) :
    wwAt kw s = true ↔
      ∃ mid post, s = mid ++ post ∧ LcEq mid kw ∧ BoundaryChar post.head? := by
  unfold wwAt
  rw [Bool.and_eq_true, startsWithCI_iff]
  constructor
  · rintro ⟨⟨mid, post, rfl, hmid⟩, hb⟩
    refine ⟨mid, post, rfl, hmid, ?_⟩
    unfold boundaryR at hb
    rw [← lcEq_length hmid, List.drop_left] at hb
    cases post with
    | nil => trivial
    | cons d ds => simpa [BoundaryChar] using hb
  · rintro ⟨mid, post, rfl, hmid, hb⟩
    refine ⟨⟨mid, post, rfl, hmid⟩, ?_⟩
    unfold boundaryR
    rw [← lcEq_length hmid, List.drop_left]
    cases post with
    | nil => rfl
    | cons d ds => simpa [BoundaryChar] using hb

theorem prevOkCond_cons (b : Bool) (c : Char) (l : List Char) :
    PrevOkCond b (c :: l) ↔ PrevOkCond (!isWordChar c) l := by
  cases l with
  | nil => simp [PrevOkCond, Bool.not_eq_true']
  | cons d ds =>
    cases hx : (d :: ds).getLast? with
    | none => simp [List.getLast?_eq_none_iff] at hx
    | some x => simp [PrevOkCond, List.getLast?_cons_cons, hx]

theorem wwScan_iff (kw : List Char) (hkw : kw ≠ []) (prevOk : Bool) (s : List Char) :
    wwScan kw prevOk s = true ↔
      ∃ pre mid post, s = pre ++ mid ++ post ∧ LcEq mid kw ∧
        PrevOkCond prevOk pre ∧ BoundaryChar post.head? := by
  induction s generalizing prevOk with
  | nil =>
    simp only [wwScan]
    constructor
    · intro h
      exact Bool.noConfusion h
    · rintro ⟨pre, mid, post, h, hmid, hpre, hb⟩
      rcases List.append_eq_nil.mp h.symm with ⟨h1, rfl⟩
      rcases List.append_eq_nil.mp h1 with ⟨rfl, rfl⟩
      exact absurd (by simpa [LcEq] using hmid.symm) hkw
  | cons c cs ih =>
    have hstep : wwScan kw prevOk (c :: cs) =
        ((prevOk && wwAt kw (c :: cs)) || wwScan kw (!isWordChar c) cs) := rfl
    rw [hstep, Bool.or_eq_true, Bool.and_eq_true, wwAt_iff, ih]
    constructor
    · rintro (⟨hprev, mid, post, heq, hmid, hb⟩ | ⟨pre, mid, post, heq, hmid, hpre, hb⟩)
      · exact ⟨[], mid, post, by simpa using heq, hmid, by simpa [PrevOkCond] using hprev, hb⟩
      · refine ⟨c :: pre, mid, post, by simp [heq], hmid, ?_, hb⟩
        exact (prevOkCond_cons prevOk c pre).mpr hpre
    · rintro ⟨pre, mid, post, heq, hmid, hpre, hb⟩
      cases pre with
      | nil =>
        exact Or.inl ⟨by simpa [PrevOkCond] using hpre, mid, post, by simpa using heq, hmid, hb⟩
      | cons d pre' =>
        have hh : c = d ∧ cs = pre' ++ mid ++ post := by simpa using heq
        obtain ⟨rfl, hcs⟩ := hh
        exact Or.inr ⟨pre', mid, post, hcs, hmid,
          (prevOkCond_cons prevOk c pre').mp hpre, hb⟩

theorem hasWholeWordCI_iff (kw s : List Char) (hkw : kw ≠ []) :
    hasWholeWordCI kw s = true ↔ WholeWordOccurs kw s := by
  unfold hasWholeWordCI WholeWordOccurs
  rw [wwScan_iff kw hkw true s]
  refine exists_congr fun pre => exists_congr fun mid => exists_congr fun post => ?_
  have : PrevOkCond true pre ↔ BoundaryChar pre.getLast? := by
    unfold PrevOkCond BoundaryChar
    cases pre.getLast? <;> simp
  tauto

theorem forbidden_keyword_nonempty {kw : String} (h : kw ∈ FORBIDDEN_KEYWORDS) :
    kw.toList ≠ [] := by
  simp [FORBIDDEN_KEYWORDS] at h
  rcases h with rfl | rfl | rfl | rfl | rfl | rfl | rfl | rfl | rfl | rfl <;> decide

/-- C2.  The basic safety check `is_query_safe` rejects exactly the strings in
which some blocklisted keyword occurs as a whole word, case-insensitively:
it returns false iff such an occurrence exists, hence it returns true for
every string in which the keywords occur only inside longer identifiers
(flanked by word characters) or not at all. -/
theorem is_query_safe_whole_word (s : String) :
    is_query_safe s = false ↔
      ∃ kw ∈ FORBIDDEN_KEYWORDS, WholeWordOccurs kw.toList s.toList := by
  unfold is_query_safe
  rw [Bool.not_eq_false', List.any_eq_true]
  constructor
  · rintro ⟨kw, hm, h⟩
    exact ⟨kw, hm, (hasWholeWordCI_iff kw.toList s.toList (forbidden_keyword_nonempty hm)).mp h⟩
  · rintro ⟨kw, hm, h⟩
    exact ⟨kw, hm, (hasWholeWordCI_iff kw.toList s.toList (forbidden_keyword_nonempty hm)).mpr h⟩

theorem rule_score_eq (sql : String) :
    rule_score sql =
      if ruleForbidden.any (fun f => containsSub f.toList (pyUpper sql).toList) then 0
      else max 0 (if containsSub "SELECT *".toList (pyUpper sql).toList then 1 - 1/10 else 1) :=
  rfl

/-- C3, counterexample.  On `"SELECT insertion_date FROM t"` none of
DELETE/UPDATE/INSERT/ALTER occurs as a whole word, yet `rule_score` returns
0.0 (below the claimed floor of 0.9), because the code tests plain substring
membership (`f in up`), not word-boundary matches: `INSERT` is a substring of
`INSERTION_DATE`. -/
theorem rule_score_not_whole_word :
    rule_score "SELECT insertion_date FROM t" = 0 ∧
    (∀ kw ∈ ruleForbidden,
      ¬ WholeWordOccurs kw.toList "SELECT insertion_date FROM t".toList) ∧
    rule_score "SELECT insertion_date FROM t" < 9/10 := by
  have hc : (ruleForbidden.any fun f =>
      containsSub f.toList (pyUpper "SELECT insertion_date FROM t").toList) = true := by
    decide
  refine ⟨by rw [rule_score_eq, if_pos hc], ?_, by rw [rule_score_eq, if_pos hc]; norm_num⟩
  intro kw hm
  simp [ruleForbidden] at hm
  rcases hm with rfl | rfl | rfl | rfl <;>
    exact fun h => absurd ((hasWholeWordCI_iff _ _ (by decide)).mpr h) (by decide)

/-- C3 (amended).  `rule_score` returns 0.0 exactly when one of
DELETE/UPDATE/INSERT/ALTER occurs as a *substring* of the upper-cased SQL
(not a whole-word match); otherwise it returns 0.9 when the upper-cased SQL
contains `SELECT *` and 1.0 when it does not, so every query without those
substrings scores in [0.9, 1.0]. -/
theorem rule_score_spec (sql : String) :
    (rule_score sql = 0 ↔
      ∃ kw ∈ ruleForbidden, SubstrOccurs kw.toList (pyUpper sql).toList) ∧
    ((∀ kw ∈ ruleForbidden, ¬ SubstrOccurs kw.toList (pyUpper sql).toList) →
      rule_score sql =
        (if containsSub "SELECT *".toList (pyUpper sql).toList then 9/10 else 1) ∧
      9/10 ≤ rule_score sql ∧ rule_score sql ≤ 1) := by
  rw [rule_score_eq]
  by_cases hany :
      ruleForbidden.any (fun f => containsSub f.toList (pyUpper sql).toList) = true
  · rw [if_pos hany]
    rw [List.any_eq_true] at hany
    obtain ⟨kw, hm, hkw⟩ := hany
    constructor
    · exact iff_of_true rfl ⟨kw, hm, (containsSub_iff _ _).mp hkw⟩
    · intro hnone
      exact absurd ((containsSub_iff _ _).mp hkw) (hnone kw hm)
  · rw [if_neg hany]
    have hval : (max 0 (if containsSub "SELECT *".toList (pyUpper sql).toList
        then 1 - 1/10 else (1 : ℚ))) =
        (if containsSub "SELECT *".toList (pyUpper sql).toList then 9/10 else 1) := by
      split <;> norm_num
    rw [hval]
    constructor
    · constructor
      · intro h0
        split at h0 <;> norm_num at h0
      · rintro ⟨kw, hm, hkw⟩
        exact absurd (List.any_eq_true.mpr ⟨kw, hm, (containsSub_iff _ _).mpr hkw⟩) hany
    · intro _
      refine ⟨rfl, ?_, ?_⟩ <;> split <;> norm_num

/-- C6.  `check_plan_limits` flags a plan exactly when the total cost exceeds
1,000,000 or the row estimate exceeds 200,000; in particular it flags
(cost 2,000,000, rows 10) and passes (cost 10, rows 10). -/
theorem check_plan_limits_spec :
    (∀ (c : ℚ) (r : ℤ),
      (check_plan_limits c r).1 = true ↔ (1000000 < c ∨ 200000 < r)) ∧
    (check_plan_limits 2000000 10).1 = true ∧
    (check_plan_limits 10 10).1 = false := by
  refine ⟨fun c r => ?_, by decide, by decide⟩
  unfold check_plan_limits
  by_cases h : (1000000 : ℚ) < c ∨ (200000 : ℤ) < r
  · rw [if_pos h]
    simp [h]
  · rw [if_neg h]
    simp [h]

theorem lexLe_total (key : ℕ → ℚ) (i j : ℕ) :
    lexLe key i j = true ∨ lexLe key j i = true := by
  unfold lexLe
  rcases lt_trichotomy (key i) (key j) with h | h | h
  · left
    simp [h]
  · rcases Nat.le_total i j with hij | hij
    · left
      simp [h, hij]
    · right
      simp [h.symm, hij]
  · right
    simp [h]

theorem lexLe_trans {key : ℕ → ℚ} {i j k : ℕ} (h1 : lexLe key i j = true)
    (h2 : lexLe key j k = true) : lexLe key i k = true := by
  unfold lexLe at h1 h2 ⊢
  simp only [Bool.or_eq_true, Bool.and_eq_true, decide_eq_true_eq] at h1 h2 ⊢
  rcases h1 with h1 | ⟨h1e, h1n⟩ <;> rcases h2 with h2 | ⟨h2e, h2n⟩
  · exact Or.inl (lt_trans h1 h2)
  · exact Or.inl (h2e ▸ h1)
  · exact Or.inl (h1e ▸ h2)
  · exact Or.inr ⟨h1e.trans h2e, le_trans h1n h2n⟩

theorem mem_ordInsert (key : ℕ → ℚ) (i a : ℕ) (l : List ℕ) :
    a ∈ ordInsert key i l ↔ a = i ∨ a ∈ l := by
  induction l with
  | nil => simp [ordInsert]
  | cons j l ih =>
    unfold ordInsert
    split
    · simp only [List.mem_cons]
      try tauto
    · simp only [List.mem_cons, ih]
      try tauto

theorem perm_ordInsert (key : ℕ → ℚ) (i : ℕ) (l : List ℕ) :
    List.Perm (ordInsert key i l) (i :: l) := by
  induction l with
  | nil => rfl
  | cons j l ih =>
    unfold ordInsert
    split
    · rfl
    · exact (ih.cons j).trans (List.Perm.swap i j l)

theorem perm_sortIdx (key : ℕ → ℚ) (l : List ℕ) : List.Perm (sortIdx key l) l := by
  induction l with
  | nil => rfl
  | cons i l ih => exact (perm_ordInsert key i (sortIdx key l)).trans (ih.cons i)

theorem pairwise_ordInsert (key : ℕ → ℚ) (i : ℕ) (l : List ℕ)
    (h : l.Pairwise (fun a b => lexLe key a b = true)) :
    (ordInsert key i l).Pairwise (fun a b => lexLe key a b = true) := by
  induction l with
  | nil => simp [ordInsert]
  | cons j l ih =>
    unfold ordInsert
    rcases List.pairwise_cons.mp h with ⟨hj, hl⟩
    split
    · rename_i hij
      refine List.pairwise_cons.mpr ⟨?_, h⟩
      intro b hb
      rcases List.mem_cons.mp hb with rfl | hbl
      · exact hij
      · exact lexLe_trans hij (hj b hbl)
    · rename_i hij
      have hji : lexLe key j i = true :=
        (lexLe_total key i j).resolve_left (by simpa using hij)
      refine List.pairwise_cons.mpr ⟨?_, ih hl⟩
      intro b hb
      rcases (mem_ordInsert key i b l).mp hb with rfl | hbl
      · exact hji
      · exact hj b hbl

theorem pairwise_sortIdx (key : ℕ → ℚ) (l : List ℕ) :
    (sortIdx key l).Pairwise (fun a b => lexLe key a b = true) := by
  induction l with
  | nil => simp [sortIdx]
  | cons i l ih => exact pairwise_ordInsert key i (sortIdx key l) ih

theorem argsortDesc_perm (key : ℕ → ℚ) (n : ℕ) : List.Perm (argsortDesc key n) (List.range n) :=
  (List.reverse_perm _).trans (perm_sortIdx key (List.range n))

theorem length_argsortDesc (key : ℕ → ℚ) (n : ℕ) : (argsortDesc key n).length = n :=
  (argsortDesc_perm key n).length_eq.trans (List.length_range n)

theorem mem_argsortDesc (key : ℕ → ℚ) (n a : ℕ) : a ∈ argsortDesc key n ↔ a < n := by
  rw [(argsortDesc_perm key n).mem_iff, List.mem_range]

theorem nodup_argsortDesc (key : ℕ → ℚ) (n : ℕ) : (argsortDesc key n).Nodup :=
  ((argsortDesc_perm key n).nodup_iff).mpr (List.nodup_range n)

theorem pairwise_argsortDesc (key : ℕ → ℚ) (n : ℕ) :
    (argsortDesc key n).Pairwise
      (fun a b => key b ≤ key a ∧ (key a = key b → b < a)) := by
  have hp : (argsortDesc key n).Pairwise (fun a b => lexLe key b a = true) :=
    List.pairwise_reverse.mpr (pairwise_sortIdx key (List.range n))
  have hnd : (argsortDesc key n).Pairwise (fun a b => a ≠ b) := nodup_argsortDesc key n
  refine (hp.and hnd).imp ?_
  rintro a b ⟨hab, hne⟩
  unfold lexLe at hab
  simp only [Bool.or_eq_true, Bool.and_eq_true, decide_eq_true_eq] at hab
  rcases hab with h | ⟨he, hn⟩
  · exact ⟨le_of_lt h, fun heq => absurd (heq ▸ h) (lt_irrefl _)⟩
  · exact ⟨le_of_eq he, fun _ => lt_of_le_of_ne hn (fun hba => hne hba.symm)⟩

theorem getD_zipWith (f : ℚ → ℚ → ℚ) (l1 l2 : List ℚ) (i : ℕ)
    (h : i < (List.zipWith f l1 l2).length) :
    (List.zipWith f l1 l2).getD i 0 = f (l1.getD i 0) (l2.getD i 0) := by
  induction l1 generalizing l2 i with
  | nil => simp at h
  | cons a l1 ih =>
    cases l2 with
    | nil => simp at h
    | cons b l2 =>
      cases i with
      | zero => simp
      | succ i =>
        simp only [List.zipWith_cons_cons, List.getD_cons_succ]
        exact ih l2 i (by simpa using h)

theorem length_buildRanking (c n : List String) (m r f : List ℚ) (r0 : ℕ) (l : List ℕ) :
    (buildRanking c n m r f r0 l).length = l.length := by
  induction l generalizing r0 with
  | nil => rfl
  | cons idx rest ih => simp [buildRanking, ih]

theorem get?_buildRanking (c n : List String) (m r f : List ℚ) (r0 : ℕ) (l : List ℕ)
    (i : ℕ) :
    (buildRanking c n m r f r0 l).get? i =
      (l.get? i).map (fun idx => mkRanked c n m r f (r0 + i + 1) idx) := by
  induction l generalizing r0 i with
  | nil => simp [buildRanking]
  | cons idx rest ih =>
    cases i with
    | zero => simp [buildRanking]
    | succ i =>
      have harith : r0 + 1 + i + 1 = r0 + (i + 1) + 1 := by omega
      simp only [buildRanking, List.get?_cons_succ, ih, harith]

theorem mem_buildRanking {c n : List String} {m r f : List ℚ} {r0 : ℕ} {l : List ℕ}
    {e : RankedQuery} (h : e ∈ buildRanking c n m r f r0 l) :
    ∃ k idx, idx ∈ l ∧ e = mkRanked c n m r f k idx := by
  induction l generalizing r0 with
  | nil => simp [buildRanking] at h
  | cons idx rest ih =>
    rcases List.mem_cons.mp (by simpa [buildRanking] using h) with h1 | h2
    · exact ⟨r0 + 1, idx, List.mem_cons_self idx rest, h1⟩
    · obtain ⟨k, idx', hm, he⟩ := ih h2
      exact ⟨k, idx', List.mem_cons_of_mem idx hm, he⟩

theorem pairwise_final_buildRanking (c n : List String) (m r : List ℚ) (f : List ℚ)
    (r0 : ℕ) (l : List ℕ)
    (h : l.Pairwise (fun a b => f.getD b 0 ≤ f.getD a 0)) :
    (buildRanking c n m r f r0 l).Pairwise
      (fun e e' => e'.final_score ≤ e.final_score) := by
  induction l generalizing r0 with
  | nil => exact List.Pairwise.nil
  | cons idx rest ih =>
    rcases List.pairwise_cons.mp h with ⟨hhead, htail⟩
    refine List.pairwise_cons.mpr ⟨?_, ih _ htail⟩
    intro e he
    obtain ⟨k, idx', hm, rfl⟩ := mem_buildRanking he
    exact hhead idx' hm

theorem pick_best_query_eq (norm : String → String) (predict : String → String → ℚ)
    (question : String) (candidates : List String) (top_k : ℕ) :
    pick_best_query norm predict question candidates top_k =
      (let normed := candidates.map norm
       let model_scores := normed.map (predict question)
       let rules := normed.map rule_score
       let finals := List.zipWith (fun m r => 7/10 * m + 3/10 * r) model_scores rules
       buildRanking candidates normed model_scores rules finals 0
        ((argsortDesc (fun i => finals.getD i 0) finals.length).take top_k)) :=
  rfl

theorem ranking_spec_core (c nd : List String) (m r : List ℚ)
    (hm : m.length = c.length) (hr : r.length = c.length) (top_k : ℕ) :
    (buildRanking c nd m r (List.zipWith (fun x y => 7/10 * x + 3/10 * y) m r) 0
      ((argsortDesc (fun i => (List.zipWith (fun x y => 7/10 * x + 3/10 * y) m r).getD i 0)
        (List.zipWith (fun x y => 7/10 * x + 3/10 * y) m r).length).take top_k)).length
      = min top_k c.length ∧
    (∀ e ∈ buildRanking c nd m r (List.zipWith (fun x y => 7/10 * x + 3/10 * y) m r) 0
      ((argsortDesc (fun i => (List.zipWith (fun x y => 7/10 * x + 3/10 * y) m r).getD i 0)
        (List.zipWith (fun x y => 7/10 * x + 3/10 * y) m r).length).take top_k),
      e.final_score = 7/10 * e.model_score + 3/10 * e.rule_score) ∧
    (buildRanking c nd m r (List.zipWith (fun x y => 7/10 * x + 3/10 * y) m r) 0
      ((argsortDesc (fun i => (List.zipWith (fun x y => 7/10 * x + 3/10 * y) m r).getD i 0)
        (List.zipWith (fun x y => 7/10 * x + 3/10 * y) m r).length).take top_k)).Pairwise
      (fun e e' => e'.final_score ≤ e.final_score) ∧
    (∀ i e, (buildRanking c nd m r (List.zipWith (fun x y => 7/10 * x + 3/10 * y) m r) 0
      ((argsortDesc (fun i => (List.zipWith (fun x y => 7/10 * x + 3/10 * y) m r).getD i 0)
        (List.zipWith (fun x y => 7/10 * x + 3/10 * y) m r).length).take top_k)).get? i
        = some e → e.rank = i + 1) := by
  set F := List.zipWith (fun x y => 7/10 * x + 3/10 * y) m r with hF
  have hFlen : F.length = c.length := by
    rw [hF, List.length_zipWith, hm, hr, Nat.min_self]
  set key := fun i => F.getD i 0 with hkey
  set order := (argsortDesc key F.length).take top_k with horder
  refine ⟨?_, ?_, ?_, ?_⟩
  · rw [length_buildRanking, horder, List.length_take, length_argsortDesc, hFlen]
  · intro e he
    obtain ⟨k, idx, hidx, rfl⟩ := mem_buildRanking he
    have hidx2 : idx ∈ argsortDesc key F.length := (List.take_sublist top_k _).subset hidx
    have hlt : idx < F.length := (mem_argsortDesc key F.length idx).mp hidx2
    show F.getD idx 0 = 7/10 * (m.getD idx 0) + 3/10 * (r.getD idx 0)
    exact getD_zipWith _ m r idx hlt
  · refine pairwise_final_buildRanking c nd m r F 0 order ?_
    have hp := (pairwise_argsortDesc key F.length).sublist (List.take_sublist top_k _)
    exact hp.imp (fun h => h.1)
  · intro i e hget
    rw [get?_buildRanking] at hget
    rcases horder2 : order.get? i with _ | idx
    · rw [horder2, Option.map_none'] at hget
      exact Option.noConfusion hget
    · rw [horder2] at hget
      simp only [Option.map_some', Option.some.injEq] at hget
      have : e.rank = 0 + i + 1 := by
        rw [← hget]
        rfl
      omega

/-- C4 (amended).  `pick_best_query` returns exactly
`min top_k (len candidates)` entries; every returned entry satisfies
`final_score = 0.7*model_score + 0.3*rule_score`; the returned `final_score`s
are non-increasing; the 1-based `rank` equals the position in the output, so
it is strictly increasing.  The tie policy, however, is *reverse* input order:
the index order `argsortDesc` (the model of `final.argsort()[::-1]`) places,
among equal final scores, the later candidate strictly first — not the earlier
one as a stable descending sort would. -/
theorem pick_best_query_ranking_spec (norm : String → String)
    (predict : String → String → ℚ) (question : String) (candidates : List String)
    (top_k : ℕ) :
    (pick_best_query norm predict question candidates top_k).length
      = min top_k candidates.length ∧
    (∀ e ∈ pick_best_query norm predict question candidates top_k,
      e.final_score = 7/10 * e.model_score + 3/10 * e.rule_score) ∧
    (pick_best_query norm predict question candidates top_k).Pairwise
      (fun e e' => e'.final_score ≤ e.final_score) ∧
    (∀ i e, (pick_best_query norm predict question candidates top_k).get? i = some e →
      e.rank = i + 1) ∧
    (∀ (key : ℕ → ℚ) (n : ℕ), (argsortDesc key n).Pairwise
      (fun a b => key b ≤ key a ∧ (key a = key b → b < a))) := by
  have hcore := ranking_spec_core candidates (candidates.map norm)
    ((candidates.map norm).map (predict question)) ((candidates.map norm).map rule_score)
    (by simp) (by simp) top_k
  rw [pick_best_query_eq]
  exact ⟨hcore.1, hcore.2.1, hcore.2.2.1, hcore.2.2.2,
    fun key n => pairwise_argsortDesc key n⟩

/-- C4, counterexample.  Two candidates with identical final scores (13/20
each): `pick_best_query` ranks the *second* candidate first, so ties are not
broken by input order as the claim's stable-sort clause states. -/
theorem pick_best_query_tie_cex :
    ((pick_best_query id (fun _ _ => 1/2) "q" ["SELECT 1", "SELECT 2"] 2).map
      (fun e => (e.rank, e.sql))) = [(1, "SELECT 2"), (2, "SELECT 1")] ∧
    ((pick_best_query id (fun _ _ => 1/2) "q" ["SELECT 1", "SELECT 2"] 2).map
      (fun e => e.final_score)) = [13/20, 13/20] ∧
    ("SELECT 2" : String) ≠ "SELECT 1" := by
  refine ⟨?_, ?_, by decide⟩ <;> with_unfolding_all decide

/-- C5.  With `retries=5` and `backoff_factor=2`: a provider that raises a
rate-limit error on its first 3 calls and then succeeds makes the gateway
sleep exactly 3 times, for 2, 4 and 8 seconds, and return the successful
response; a provider that raises rate-limit errors on 6 (or more) consecutive
calls makes the gateway fail with the retries-exhausted exception. -/
theorem safe_send_message_backoff :
    (∀ (call : ℕ → CallRes) (newAdapter : Bool) (v : String),
      (∀ n, n < 3 → call n = .rateExh) → call 3 = .ok v →
      safe_send_message call newAdapter 5 2 = ([2, 4, 8], .ok v)) ∧
    (∀ (call : ℕ → CallRes) (newAdapter : Bool),
      (∀ n, n < 6 → call n = .rateExh) →
      (safe_send_message call newAdapter 5 2).2 = .raised maxAttemptsMsg) := by
  constructor
  · intro call newA v h3 hok
    have e0 := h3 0 (by omega)
    have e1 := h3 1 (by omega)
    have e2 := h3 2 (by omega)
    simp [safe_send_message, sendLoop, e0, e1, e2, hok]
  · intro call newA h6
    have e0 := h6 0 (by omega)
    have e1 := h6 1 (by omega)
    have e2 := h6 2 (by omega)
    have e3 := h6 3 (by omega)
    have e4 := h6 4 (by omega)
    simp [safe_send_message, sendLoop, e0, e1, e2, e3, e4]

/-- Witness for C5 at a concrete provider function. -/
theorem safe_send_message_backoff_witness :
    safe_send_message (fun n => if n < 3 then .rateExh else .ok "v") false 5 2
      = ([2, 4, 8], .ok "v") ∧
    (safe_send_message (fun _ => .rateExh) true 5 2).2 = .raised maxAttemptsMsg :=
  ⟨safe_send_message_backoff.1 (fun n => if n < 3 then .rateExh else .ok "v") false "v"
      (fun n h => by simp [h]) (by simp),
    safe_send_message_backoff.2 (fun _ => .rateExh) true (fun n _ => rfl)⟩

/-- C7, counterexample.  A provider whose call raises a non-rate-shaped
exception `"boom"` at the first attempt: the gateway performs no sleep and no
further attempt, but the caller does not receive the original exception —
the code logs it, breaks, and raises the generic retries-exhausted exception
instead, so the original error does not propagate. -/
theorem upstream_exc_swallowed_cex :
    safe_send_message (fun _ => .exc "boom") false 5 2 = ([], .raised maxAttemptsMsg) ∧
    (safe_send_message (fun _ => .exc "boom") false 5 2).2 ≠ .raised "boom" := by
  refine ⟨by decide, by decide⟩

/-- C7 (amended).  At any attempt inside the retry loop, an exception that is
not rate-limit-shaped ends the loop immediately: no backoff sleep is added,
no further provider call is made, and the gateway raises at once — but it
raises the generic "Máximo de tentativas atingido." exception, swallowing the
original error rather than propagating it. -/
theorem upstream_exc_no_retry (call : ℕ → CallRes) (newAdapter : Bool)
    (retries backoff fuel attempt : ℕ) (sleeps : List ℕ) (msg : String)
    (hlt : attempt < retries) (hc : call attempt = .exc msg)
    (hshape : isRateShaped newAdapter msg = false) :
    sendLoop call newAdapter retries backoff (fuel + 1) attempt sleeps
      = (sleeps, .raised maxAttemptsMsg) := by
  simp [sendLoop, hlt, hc, hshape]

/-- Witness for C7's amended theorem at a concrete provider and attempt. -/
theorem upstream_exc_no_retry_witness :
    sendLoop (fun _ => .exc "boom") false 5 2 (4 + 1) 0 [] = ([], .raised maxAttemptsMsg) :=
  upstream_exc_no_retry (fun _ => .exc "boom") false 5 2 4 0 [] "boom"
    (by omega) rfl (by decide)

theorem stepCandidate_ut (norm : String → String) (st : ParseState) (p : Payload) :
    (stepCandidate norm st (some p)).used_tables_list =
      (effectiveUt p).getD st.used_tables_list := by
  cases h : p.used_tables.getD (.jlist []) with
  | jlist l => simp [stepCandidate, effectiveUt, h]
  | other => simp [stepCandidate, effectiveUt, h]

theorem foldl_used_tables (norm : String → String) (cands : List (Option Payload))
    (st : ParseState) :
    (cands.foldl (stepCandidate norm) st).used_tables_list =
      ((cands.filterMap id).filterMap effectiveUt).getLastD st.used_tables_list := by
  induction cands generalizing st with
  | nil => rfl
  | cons c rest ih =>
    cases c with
    | none =>
      simp only [List.foldl_cons, List.filterMap_cons]
      rw [ih]
      rfl
    | some p =>
      simp only [List.foldl_cons, List.filterMap_cons]
      rw [ih]
      cases hut : effectiveUt p with
      | none =>
        have h1 : (stepCandidate norm st (some p)).used_tables_list
            = st.used_tables_list := by
          rw [stepCandidate_ut, hut]
          rfl
        simp only [id, List.filterMap_cons, hut, h1]
      | some l =>
        have h1 : (stepCandidate norm st (some p)).used_tables_list = l := by
          rw [stepCandidate_ut, hut]
          rfl
        simp only [id, List.filterMap_cons, hut, h1, List.getLastD_cons]

/-- C9 (amended).  The `used_tables` list returned by the candidate loop is
the value left by the *last* successfully parsed candidate whose (defaulted)
`used_tables` value is a list — and a candidate missing the field defaults to
`[]`, which is a list, so it also overwrites: only a candidate whose
`used_tables` is present but not a list leaves the accumulator untouched.
Lists are never merged across candidates; if no parsed candidate qualifies the
result is `[]`. -/
theorem used_tables_last_overwrite (norm : String → String)
    (cands : List (Option Payload)) :
    (processCandidates norm cands).used_tables_list =
      ((cands.filterMap id).filterMap effectiveUt).getLastD [] :=
  foldl_used_tables norm cands ⟨[], [], [], []⟩

/-- C9, counterexample.  Two successfully parsed candidates: the first carries
`used_tables = ["a"]`, the second has no `used_tables` field at all (so it
supplies nothing).  The loop nevertheless ends with `[]` — the second
candidate's missing field defaulted to `[]` and overwrote `["a"]` — whereas
the claim ("the list of the last parsed candidate that supplies it") demands
`["a"]`. -/
theorem used_tables_overwrite_cex :
    (processCandidates id
      [some ⟨"s1", "e1", "m1", some (.jlist ["a"])⟩,
       some ⟨"s2", "e2", "m2", none⟩]).used_tables_list = [] ∧
    (["a"] : List String) ≠ ([] : List String) := by
  refine ⟨by decide, by decide⟩

/-- C1.  A candidate whose SQL fails the blocklist check is never emitted by
the generation pipeline (whatever branch the selection logic takes, the
returned SQL is either a safe fixed message or a candidate that passed
`is_query_safe`, never the unsafe text), and the executor rejects it before
any database round trip: `execute_sql_query` returns the blocked-for-security
message with an *empty* action trace — no `EXPLAIN` dry run for the Admission
Controller and no real execution. -/
theorem unsafe_candidate_never_executed (norm : String → String)
    (predict : String → String → ℚ) (question : String)
    (sql_candidates explanations ml_algorithms : List String)
    (used_tables_list : List String) (c : String)
    (hnotsafe : is_query_safe c = false) :
    (rerankAndGuard norm predict question sql_candidates explanations ml_algorithms
        used_tables_list).1 ≠ c ∧
    (∀ db : DBModel, execute_sql_query db c =
      (.blocked "A query foi bloqueada por razões de segurança.", [])) := by
  have hedge : ∀ s : String, is_query_safe s = true → s ≠ c := by
    intro s hs he
    rw [he, hnotsafe] at hs
    exact Bool.noConfusion hs
  constructor
  · unfold rerankAndGuard
    dsimp only
    split
    · exact hedge noQueryMsg (by decide)
    · split
      · exact hedge rerankErrMsg (by decide)
      · rename_i top heq
        split
        · exact hedge blockedGenMsg (by decide)
        · rename_i hcond
          push_neg at hcond
          have hsafe : is_query_safe top.sql = true :=
            Bool.ne_false_iff.mp hcond.2
          split
          · exact hedge top.sql hsafe
          · split
            · exact hedge rerankErrMsg (by decide)
            · exact hedge top.sql hsafe
  · intro db
    unfold execute_sql_query
    rw [if_pos hnotsafe]

/-- Witness for C1: the spec's own example candidate `"DELETE FROM t"`. -/
theorem unsafe_candidate_never_executed_witness :
    is_query_safe "DELETE FROM t" = false ∧
    (rerankAndGuard id (fun _ _ => 0) "q" ["DELETE FROM t"] ["e"] ["m"] ["t"]).1
      ≠ "DELETE FROM t" ∧
    execute_sql_query ⟨fun _ => .error "x", fun _ => []⟩ "DELETE FROM t" =
      (.blocked "A query foi bloqueada por razões de segurança.", []) := by
  have h := unsafe_candidate_never_executed id (fun _ _ => 0) "q" ["DELETE FROM t"]
    ["e"] ["m"] ["t"] "DELETE FROM t" (by decide)
  exact ⟨by decide, h.1, h.2 ⟨fun _ => .error "x", fun _ => []⟩⟩

/-- C10.  `validate_query_integrity` rejects any empty argument with the
empty-query reason; for non-empty arguments it accepts exactly when the hashes
of the two normalized queries coincide (for the abstracted hash primitive `h`,
hence in particular for SHA-256); and any two non-empty queries with the same
normalized form — e.g. differing only in comments, whitespace or letter
case — are judged identical. -/
theorem validate_query_integrity_spec (h : String → String)
    (stored execution : String) :
    ((stored = "" ∨ execution = "") →
      validate_query_integrity h stored execution = (false, "Query vazia detectada")) ∧
    (stored ≠ "" → execution ≠ "" →
      ((validate_query_integrity h stored execution).1 = true ↔
        generate_query_hash h stored = generate_query_hash h execution)) ∧
    (stored ≠ "" → execution ≠ "" →
      normalize_query stored = normalize_query execution →
      (validate_query_integrity h stored execution).1 = true) := by
  have hmain : stored ≠ "" → execution ≠ "" →
      ((validate_query_integrity h stored execution).1 = true ↔
        generate_query_hash h stored = generate_query_hash h execution) := by
    intro h1 h2
    unfold validate_query_integrity
    rw [if_neg (by tauto)]
    by_cases heq : generate_query_hash h stored = generate_query_hash h execution
    · rw [if_neg (fun hne => hne heq)]
      simp [heq]
    · rw [if_pos heq]
      simp [heq]
  refine ⟨?_, hmain, ?_⟩
  · intro he
    unfold validate_query_integrity
    rw [if_pos he]
  · intro h1 h2 hnorm
    refine (hmain h1 h2).mpr ?_
    unfold generate_query_hash
    rw [hnorm]

/-- Witness for C10: two queries differing only in a comment and extra
whitespace are accepted; an empty argument is rejected. -/
theorem validate_query_integrity_witness :
    (validate_query_integrity id "SELECT 1 -- c" "select  1").1 = true ∧
    validate_query_integrity id "" "x" = (false, "Query vazia detectada") :=
  ⟨(validate_query_integrity_spec id "SELECT 1 -- c" "select  1").2.2
      (by decide) (by decide) (by decide),
    (validate_query_integrity_spec id "" "x").1 (Or.inl rfl)⟩

theorem removeLineAux_no_comment (fuel : ℕ) (s : List Char)
    (hlen : s.length ≤ fuel) (hno : containsSub "--".toList s = false) :
    removeLineAux fuel s = s := by
  induction fuel generalizing s with
  | zero => rfl
  | succ fuel ih =>
    cases s with
    | nil => rfl
    | cons c cs =>
      have hsplit : startsWithL "--".toList (c :: cs) = false ∧
          containsSub "--".toList cs = false := by
        have heq : containsSub "--".toList (c :: cs)
            = (startsWithL "--".toList (c :: cs) || containsSub "--".toList cs) := rfl
        rw [heq] at hno
        exact ⟨by rcases Bool.or_eq_false_iff.mp hno with ⟨h1, h2⟩; exact h1,
          by rcases Bool.or_eq_false_iff.mp hno with ⟨h1, h2⟩; exact h2⟩
      unfold removeLineAux
      dsimp only
      rw [hsplit.1]
      simp only [Bool.false_eq_true, if_false]
      rw [ih cs (by simp only [List.length_cons] at hlen; omega) hsplit.2]

theorem removeBlockAux_no_open (fuel : ℕ) (s : List Char)
    (hlen : s.length ≤ fuel) (hno : containsSub "/*".toList s = false) :
    removeBlockAux fuel s = s := by
  induction fuel generalizing s with
  | zero => rfl
  | succ fuel ih =>
    cases s with
    | nil => rfl
    | cons c cs =>
      have hsplit : startsWithL "/*".toList (c :: cs) = false ∧
          containsSub "/*".toList cs = false := by
        have heq : containsSub "/*".toList (c :: cs)
            = (startsWithL "/*".toList (c :: cs) || containsSub "/*".toList cs) := rfl
        rw [heq] at hno
        exact ⟨(Bool.or_eq_false_iff.mp hno).1, (Bool.or_eq_false_iff.mp hno).2⟩
      unfold removeBlockAux
      dsimp only
      rw [hsplit.1]
      simp only [Bool.false_eq_true, if_false]
      rw [ih cs (by simp only [List.length_cons] at hlen; omega) hsplit.2]

theorem takeWhile_all_true (p : Char → Bool) (l : List Char)
    (h : ∀ x ∈ l, p x = true) : l.takeWhile p = l := by
  induction l with
  | nil => rfl
  | cons x xs ih =>
    rw [List.takeWhile_cons, if_pos (h x (List.mem_cons_self x xs))]
    rw [ih (fun y hy => h y (List.mem_cons_of_mem x hy))]

theorem dropWhile_all_true (p : Char → Bool) (l : List Char)
    (h : ∀ x ∈ l, p x = true) : l.dropWhile p = [] := by
  induction l with
  | nil => rfl
  | cons x xs ih =>
    rw [List.dropWhile_cons, if_pos (h x (List.mem_cons_self x xs))]
    exact ih (fun y hy => h y (List.mem_cons_of_mem x hy))

theorem takeWhile_append_stop (p : Char → Bool) (a : List Char) (b : Char) (t : List Char)
    (ha : ∀ x ∈ a, p x = true) (hb : p b = false) :
    (a ++ b :: t).takeWhile p = a := by
  induction a with
  | nil => simp [List.takeWhile_cons, hb]
  | cons x xs ih =>
    rw [List.cons_append, List.takeWhile_cons, if_pos (ha x (List.mem_cons_self x xs))]
    rw [ih (fun y hy => ha y (List.mem_cons_of_mem x hy))]

theorem dropWhile_append_stop (p : Char → Bool) (a : List Char) (b : Char) (t : List Char)
    (ha : ∀ x ∈ a, p x = true) (hb : p b = false) :
    (a ++ b :: t).dropWhile p = b :: t := by
  induction a with
  | nil => simp [List.dropWhile_cons, hb]
  | cons x xs ih =>
    rw [List.cons_append, List.dropWhile_cons, if_pos (ha x (List.mem_cons_self x xs))]
    exact ih (fun y hy => ha y (List.mem_cons_of_mem x hy))

theorem dropWhile_noop (p : Char → Bool) (l : List Char)
    (h : ∀ c, l.head? = some c → p c = false) : l.dropWhile p = l := by
  cases l with
  | nil => rfl
  | cons c cs =>
    rw [List.dropWhile_cons, h c rfl]
    simp

theorem wordsAux_good (fuel : ℕ) (s : List Char) :
    ∀ w ∈ wordsAux fuel s, w ≠ [] ∧ ∀ ch ∈ w, isPySpace ch = false := by
  induction fuel generalizing s with
  | zero =>
    intro w hw
    simp [wordsAux] at hw
  | succ fuel ih =>
    cases s with
    | nil =>
      intro w hw
      simp [wordsAux] at hw
    | cons c cs =>
      intro w hw
      unfold wordsAux at hw
      try dsimp only at hw
      by_cases hc : isPySpace c = true
      · rw [hc] at hw
        simp only [if_true] at hw
        exact ih cs w hw
      · rw [Bool.not_eq_true] at hc
        rw [hc] at hw
        simp only [Bool.false_eq_true, if_false] at hw
        rcases List.mem_cons.mp hw with rfl | hw2
        · refine ⟨by simp, ?_⟩
          intro ch hch
          rcases List.mem_cons.mp hch with rfl | hch2
          · exact hc
          · have := List.mem_takeWhile_imp hch2
            simpa using this
        · exact ih _ w hw2

theorem joinSp_ne_nil (w : List Char) (ws : List (List Char)) (hw : w ≠ []) :
    joinSp (w :: ws) ≠ [] := by
  cases ws with
  | nil => exact hw
  | cons w2 ws2 => simp [joinSp]

theorem head_joinSp_nonspace (ws : List (List Char))
    (hgood : ∀ w ∈ ws, w ≠ [] ∧ ∀ ch ∈ w, isPySpace ch = false) :
    ∀ c, (joinSp ws).head? = some c → isPySpace c = false := by
  intro c hc
  cases ws with
  | nil => simp [joinSp] at hc
  | cons w ws' =>
    obtain ⟨hwne, hwns⟩ := hgood w (List.mem_cons_self w ws')
    have hh : (joinSp (w :: ws')).head? = w.head? := by
      cases ws' with
      | nil => rfl
      | cons w2 ws2 =>
        have : joinSp (w :: w2 :: ws2) = w ++ ' ' :: joinSp (w2 :: ws2) := rfl
        rw [this, List.head?_append]
        cases w with
        | nil => exact absurd rfl hwne
        | cons d ds => rfl
    rw [hh] at hc
    exact hwns c (List.mem_of_mem_head? (by simp [hc]))

theorem last_joinSp_nonspace (ws : List (List Char))
    (hgood : ∀ w ∈ ws, w ≠ [] ∧ ∀ ch ∈ w, isPySpace ch = false) :
    ∀ c, (joinSp ws).getLast? = some c → isPySpace c = false := by
  induction ws with
  | nil =>
    intro c hc
    simp [joinSp] at hc
  | cons w ws' ih =>
    intro c hc
    obtain ⟨hwne, hwns⟩ := hgood w (List.mem_cons_self w ws')
    cases ws' with
    | nil =>
      have hc' : w.getLast? = some c := hc
      obtain ⟨hne, rfl⟩ :=
        List.mem_getLast?_eq_getLast (show c ∈ w.getLast? by simp [Option.mem_def, hc'])
      exact hwns _ (List.getLast_mem hne)
    | cons w2 ws2 =>
      have hJ : joinSp (w :: w2 :: ws2) = w ++ ' ' :: joinSp (w2 :: ws2) := rfl
      rw [hJ, List.getLast?_append] at hc
      have hne2 : joinSp (w2 :: ws2) ≠ [] :=
        joinSp_ne_nil w2 ws2 (hgood w2 (by simp)).1
      obtain ⟨d, ds, hds⟩ : ∃ d ds, joinSp (w2 :: ws2) = d :: ds := by
        cases hJ2 : joinSp (w2 :: ws2) with
        | nil => exact absurd hJ2 hne2
        | cons d ds => exact ⟨d, ds, rfl⟩
      have hlast : (' ' :: joinSp (w2 :: ws2)).getLast? = (joinSp (w2 :: ws2)).getLast? := by
        rw [hds]
        exact List.getLast?_cons_cons
      rw [hlast] at hc
      have hsome : (joinSp (w2 :: ws2)).getLast?.isSome = true := by
        rw [hds]
        simp [List.getLast?_eq_getLast_of_ne_nil]
      obtain ⟨c', hc'⟩ := Option.isSome_iff_exists.mp hsome
      rw [hc'] at hc
      simp only [Option.or_some] at hc
      obtain rfl : c' = c := by simpa using hc
      exact ih (fun v hv => hgood v (List.mem_cons_of_mem w hv)) _ hc'

theorem wordsAux_joinSp (ws : List (List Char))
    (hgood : ∀ w ∈ ws, w ≠ [] ∧ ∀ ch ∈ w, isPySpace ch = false) :
    ∀ fuel, (joinSp ws).length ≤ fuel → wordsAux fuel (joinSp ws) = ws := by
  induction ws with
  | nil =>
    intro fuel _
    cases fuel <;> rfl
  | cons w ws ih =>
    intro fuel hlen
    obtain ⟨hwne, hwns⟩ := hgood w (List.mem_cons_self w ws)
    obtain ⟨d, ds, rfl⟩ : ∃ d ds, w = d :: ds := by
      cases w with
      | nil => exact absurd rfl hwne
      | cons d ds => exact ⟨d, ds, rfl⟩
    have hd : isPySpace d = false := hwns d (by simp)
    have hds : ∀ x ∈ ds, (fun ch => !isPySpace ch) x = true := by
      intro x hx
      simp [hwns x (List.mem_cons_of_mem d hx)]
    cases ws with
    | nil =>
      have h1 : joinSp [d :: ds] = d :: ds := rfl
      rw [h1] at hlen ⊢
      obtain ⟨f, rfl⟩ : ∃ f, fuel = f + 1 :=
        ⟨fuel - 1, by simp only [List.length_cons] at hlen; omega⟩
      unfold wordsAux
      try dsimp only
      rw [hd]
      simp only [Bool.false_eq_true, if_false]
      rw [takeWhile_all_true _ _ hds, dropWhile_all_true _ _ hds]
      cases f <;> rfl
    | cons w2 ws2 =>
      have h1 : joinSp ((d :: ds) :: w2 :: ws2)
          = d :: (ds ++ ' ' :: joinSp (w2 :: ws2)) := rfl
      rw [h1] at hlen ⊢
      obtain ⟨f, rfl⟩ : ∃ f, fuel = f + 1 :=
        ⟨fuel - 1, by simp only [List.length_cons] at hlen; omega⟩
      unfold wordsAux
      try dsimp only
      rw [hd]
      simp only [Bool.false_eq_true, if_false]
      have hsp : (fun ch => !isPySpace ch) ' ' = false := by decide
      rw [takeWhile_append_stop _ _ _ _ hds hsp, dropWhile_append_stop _ _ _ _ hds hsp]
      obtain ⟨f2, rfl⟩ : ∃ f2, f = f2 + 1 := by
        refine ⟨f - 1, ?_⟩
        simp only [List.length_cons, List.length_append] at hlen
        omega
      have hstep : wordsAux (f2 + 1) (' ' :: joinSp (w2 :: ws2))
          = wordsAux f2 (joinSp (w2 :: ws2)) := by
        have hunf : wordsAux (f2 + 1) (' ' :: joinSp (w2 :: ws2)) =
            if isPySpace ' ' = true then wordsAux f2 (joinSp (w2 :: ws2))
            else (' ' :: (joinSp (w2 :: ws2)).takeWhile (fun d => !isPySpace d)) ::
              wordsAux f2 ((joinSp (w2 :: ws2)).dropWhile (fun d => !isPySpace d)) := rfl
        rw [hunf, if_pos (show isPySpace ' ' = true from by decide)]
      rw [hstep]
      rw [ih (fun v hv => hgood v (List.mem_cons_of_mem _ hv)) f2 ?hl]
      case hl =>
        simp only [List.length_cons, List.length_append] at hlen
        omega

theorem charToNatOfNatAux (n : ℕ) (h : n.isValidChar) : (Char.ofNatAux n h).toNat = n := by
  have hlt : n < 2 ^ 32 := by
    rcases h with h | h
    · omega
    · omega
  simp [Char.ofNatAux, Char.toNat, UInt32.toNat]

theorem lcC_toNat (c : Char) :
    (lcC c).toNat = if 65 ≤ c.toNat ∧ c.toNat ≤ 90 then c.toNat + 32 else c.toNat := by
  unfold lcC Char.toLower
  by_cases h : c.toNat ≥ 65 ∧ c.toNat ≤ 90
  · rw [if_pos h, if_pos ⟨h.1, h.2⟩]
    have hv : (c.toNat + 32).isValidChar := by
      left
      omega
    rw [Char.ofNat, dif_pos hv]
    exact charToNatOfNatAux _ hv
  · rw [if_neg h, if_neg (fun hc => h ⟨hc.1, hc.2⟩)]

theorem lcC_idem (c : Char) : lcC (lcC c) = lcC c := by
  have h1 := lcC_toNat c
  show Char.toLower (lcC c) = lcC c
  unfold Char.toLower
  by_cases h : 65 ≤ c.toNat ∧ c.toNat ≤ 90
  · rw [if_pos h] at h1
    rw [if_neg (by omega)]
  · rw [if_neg h] at h1
    rw [if_neg (by omega)]

theorem isPySpace_lcC (c : Char) : isPySpace (lcC c) = isPySpace c := by
  unfold isPySpace
  rw [lcC_toNat]
  by_cases h : 65 ≤ c.toNat ∧ c.toNat ≤ 90
  · rw [if_pos h]
    simp only [decide_eq_decide]
    omega
  · rw [if_neg h]

theorem wordsAux_map_lcC (fuel : ℕ) (l : List Char) :
    wordsAux fuel (l.map lcC) = (wordsAux fuel l).map (List.map lcC) := by
  have hpred : ((fun d => !isPySpace d) ∘ lcC) = (fun d => !isPySpace d) := by
    funext d
    simp [Function.comp, isPySpace_lcC]
  induction fuel generalizing l with
  | zero => rfl
  | succ fuel ih =>
    cases l with
    | nil => rfl
    | cons c cs =>
      have hunf1 : wordsAux (fuel + 1) (lcC c :: cs.map lcC) =
          if isPySpace (lcC c) = true then wordsAux fuel (cs.map lcC)
          else (lcC c :: (cs.map lcC).takeWhile (fun d => !isPySpace d)) ::
            wordsAux fuel ((cs.map lcC).dropWhile (fun d => !isPySpace d)) := rfl
      have hunf2 : wordsAux (fuel + 1) (c :: cs) =
          if isPySpace c = true then wordsAux fuel cs
          else (c :: cs.takeWhile (fun d => !isPySpace d)) ::
            wordsAux fuel (cs.dropWhile (fun d => !isPySpace d)) := rfl
      rw [List.map_cons, hunf1, hunf2, isPySpace_lcC]
      by_cases hc : isPySpace c = true
      · rw [if_pos hc, if_pos hc, ih]
      · rw [if_neg hc, if_neg hc]
        rw [List.takeWhile_map, List.dropWhile_map, hpred, ih]
        simp [List.map_cons]

theorem joinSp_map_lcC (ws : List (List Char)) :
    joinSp (ws.map (List.map lcC)) = (joinSp ws).map lcC := by
  induction ws with
  | nil => rfl
  | cons w ws ih =>
    cases ws with
    | nil => rfl
    | cons w2 ws2 =>
      have h1 : joinSp ((w.map lcC) :: (w2.map lcC) :: (ws2.map (List.map lcC)))
          = w.map lcC ++ ' ' :: joinSp ((w2.map lcC) :: (ws2.map (List.map lcC))) := rfl
      have h2 : joinSp (w :: w2 :: ws2) = w ++ ' ' :: joinSp (w2 :: ws2) := rfl
      simp only [List.map_cons] at ih ⊢
      rw [h1, h2, ih, List.map_append, List.map_cons]
      rfl

theorem pyStrip_joinSp (ws : List (List Char))
    (hgood : ∀ w ∈ ws, w ≠ [] ∧ ∀ ch ∈ w, isPySpace ch = false) :
    pyStrip (joinSp ws) = joinSp ws := by
  unfold pyStrip
  rw [dropWhile_noop isPySpace _ (head_joinSp_nonspace ws hgood)]
  rw [dropWhile_noop isPySpace _ ?hrev, List.reverse_reverse]
  case hrev =>
    intro c hc
    rw [List.head?_reverse] at hc
    exact last_joinSp_nonspace ws hgood c hc

theorem collapseWs_eq (s : List Char) : collapseWs s = joinSp (wordsAux s.length s) := rfl

/-- C8, counterexample.  The validator's normalization is not idempotent:
on the input `'a'` hyphen `'/*x*/'` hyphen `'b'`, removing the block comment
glues the two hyphens into a new line-comment marker, which only the second
pass removes. -/
theorem normalize_query_not_idempotent :
    normalize_query (normalize_query "a -/*x*/- b") ≠ normalize_query "a -/*x*/- b" ∧
    normalize_query "a -/*x*/- b" = "a -- b" ∧
    normalize_query (normalize_query "a -/*x*/- b") = "a" := by
  refine ⟨by decide, by decide, by decide⟩

/-- C8 (amended).  The validator's normalization `normalize_query` is
idempotent on every query whose normalized form contains no residual comment
marker: if `normalize_query q` contains neither `--` nor `/*` as a substring,
then `normalize_query (normalize_query q) = normalize_query q`.  (On inputs
whose normal form retains such a marker the counterexample applies; the
reranker's normalization lives in the external `sqlparse` library.) -/
theorem normalize_query_idem (q : String)
    (h1 : containsSub "--".toList (normalize_query q).toList = false)
    (h2 : containsSub "/*".toList (normalize_query q).toList = false) :
    normalize_query (normalize_query q) = normalize_query q := by
  by_cases hq : q = ""
  · rw [hq]
    rfl
  by_cases hnq : normalize_query q = ""
  · rw [hnq]
    rfl
  -- the normalized form, explicitly
  have hnq_eq : ∀ s : String, s ≠ "" → normalize_query s
      = ⟨(pyStrip (collapseWs (removeBlock (removeLine s.toList)))).map lcC⟩ := by
    intro s hs
    unfold normalize_query
    rw [if_neg hs]
  have hform : (normalize_query q).toList
      = (pyStrip (collapseWs (removeBlock (removeLine q.toList)))).map lcC := by
    rw [hnq_eq q hq]
    rfl
  set X : List Char := removeBlock (removeLine q.toList) with hX
  set W : List Char := joinSp (wordsAux X.length X) with hW
  have hgoodX : ∀ w ∈ wordsAux X.length X, w ≠ [] ∧ ∀ ch ∈ w, isPySpace ch = false :=
    wordsAux_good X.length X
  have hcollX : collapseWs X = W := rfl
  have hstripW : pyStrip W = W := pyStrip_joinSp _ hgoodX
  have hdata : (normalize_query q).toList = W.map lcC := by
    rw [hform, hcollX, hstripW]
  -- goodness of the lowered words
  have hgoodL : ∀ w ∈ (wordsAux X.length X).map (List.map lcC),
      w ≠ [] ∧ ∀ ch ∈ w, isPySpace ch = false := by
    intro w hw
    rcases List.mem_map.mp hw with ⟨w0, hw0, rfl⟩
    obtain ⟨hne, hns⟩ := hgoodX w0 hw0
    refine ⟨by simpa using hne, ?_⟩
    intro ch hch
    rcases List.mem_map.mp hch with ⟨c0, hc0, rfl⟩
    rw [isPySpace_lcC]
    exact hns c0 hc0
  have hWmap : W.map lcC = joinSp ((wordsAux X.length X).map (List.map lcC)) := by
    rw [hW, joinSp_map_lcC]
  -- second pass, step by step
  have hrl : removeLine (normalize_query q).toList = (normalize_query q).toList :=
    removeLineAux_no_comment _ _ le_rfl h1
  have hrb : removeBlock (normalize_query q).toList = (normalize_query q).toList :=
    removeBlockAux_no_open _ _ le_rfl h2
  have hwords : wordsAux (normalize_query q).toList.length (normalize_query q).toList
      = (wordsAux X.length X).map (List.map lcC) := by
    rw [hdata]
    rw [List.length_map]
    rw [wordsAux_map_lcC]
    congr 1
    rw [hW]
    have hlenW : W.length = (joinSp (wordsAux X.length X)).length := by rw [hW]
    exact wordsAux_joinSp _ hgoodX W.length (by rw [hW])
  have hcoll2 : collapseWs (normalize_query q).toList = (normalize_query q).toList := by
    rw [collapseWs_eq, hwords, ← hWmap, hdata]
  have hstrip2 : pyStrip (normalize_query q).toList = (normalize_query q).toList := by
    have : pyStrip (W.map lcC) = W.map lcC := by
      rw [hWmap]
      exact pyStrip_joinSp _ hgoodL
    rw [hdata, this]
  have hlow2 : ((normalize_query q).toList).map lcC = (normalize_query q).toList := by
    rw [hdata, List.map_map]
    have : (lcC ∘ lcC) = lcC := by
      funext c
      exact lcC_idem c
    rw [this]
  rw [hnq_eq (normalize_query q) hnq, hrl, hrb, hcoll2, hstrip2, hlow2]
  rfl

/-- Witness for C8's amended theorem: a query with a comment and double
spaces whose normal form is comment-marker-free. -/
theorem normalize_query_idem_witness :
    normalize_query (normalize_query "SELECT A,  B FROM t /* c */ -- tail")
      = normalize_query "SELECT A,  B FROM t /* c */ -- tail" :=
  normalize_query_idem "SELECT A,  B FROM t /* c */ -- tail" (by decide) (by decide)
